import Mathlib

/-
Verification of the streaming TTS pipeline in clipboard_reader.py.

Python strings are modelled as `List Char` (one element per code point, so
`List.length` matches Python `len`).  The segmenter, the session state
machine, the speed-filter computation and the producer loop are embedded
as executable Lean functions; theorems below check the specification
claims against them.
-/

/- ## Segmenter: split_text_smart_v3 -/

/-- Configuration constant CHUNK_MIN_SIZE from the source. -/
def CHUNK_MIN_SIZE : Nat := 300

/-- Configuration constant CHUNK_MAX_SIZE from the source. -/
def CHUNK_MAX_SIZE : Nat := 800

/-- Configuration constant HARD_LIMIT_SIZE from the source. -/
def HARD_LIMIT_SIZE : Nat := 1000

/-- Characters stripped by Python str.strip() with no argument
(ASCII whitespace; the exotic Unicode whitespace code points that Python
also strips play no role in this repository). -/
def isPySpace (c : Char) : Bool :=
  c = ' ' || c = '\t' || c = '\n' || c = '\r' || c = '\x0b' || c = '\x0c'

/-- Python str.strip(): drop leading and trailing whitespace. -/
def pyStrip (l : List Char) : List Char :=
  ((l.dropWhile isPySpace).reverse.dropWhile isPySpace).reverse

/-- The normalization in split_text_smart_v3:
text.replace("#", "").replace("*", "").replace("\r", "").
Removing occurrences of three distinct single characters one after the
other is the same as filtering them all out. -/
def normalizeText (l : List Char) : List Char :=
  l.filter (fun c => !(c = '#' || c = '*' || c = '\r'))

/-- Python text.split('\n'): splits on newline, keeping empty pieces;
the empty string splits to one empty piece. -/
def pySplitLines : List Char → List (List Char)
  | [] => [[]]
  | c :: rest =>
      if c = '\n' then [] :: pySplitLines rest
      else
        match pySplitLines rest with
        | [] => [[c]]
        | l :: ls => (c :: l) :: ls

/-- The sentence-ending delimiter class of RE_SPLIT, namely the seven
characters 。！？；!?; captured by its single regex group. -/
def isSplitChar (c : Char) : Bool :=
  c = '。' || c = '！' || c = '？' || c = '；' || c = '!' || c = '?' || c = ';'

/-- RE_SPLIT.split(line) with one capture group: alternating text parts
(possibly empty) and single-delimiter parts, beginning and ending with a
text part.  `acc` holds the current text part reversed. -/
def reSplitAux : List Char → List Char → List (List Char)
  | [], acc => [acc.reverse]
  | c :: rest, acc =>
      if isSplitChar c then acc.reverse :: [c] :: reSplitAux rest []
      else reSplitAux rest (c :: acc)

/-- RE_SPLIT.split(line). -/
def reSplit (l : List Char) : List (List Char) :=
  reSplitAux l []

/-- The force-split loop
`for k in range(0, len(part), HARD_LIMIT_SIZE): chunks.append(part[k:k+HARD_LIMIT_SIZE])`:
successive slices of at most HARD_LIMIT_SIZE characters; an empty part
yields no slice. -/
def forceSplitF (l : List Char) : List (List Char) :=
  if h : l = [] then []
  else l.take HARD_LIMIT_SIZE :: forceSplitF (l.drop HARD_LIMIT_SIZE)
termination_by l.length
decreasing_by
  simp only [List.length_drop]
  have hl : 0 < l.length := List.length_pos.mpr h
  have hh : 0 < HARD_LIMIT_SIZE := by decide
  omega

/-- The sub_parts loop of the hard-split branch: folds the parts of
RE_SPLIT.split(line) through the sub_buffer accumulator `sb`, returning
the chunks appended and the final sub_buffer. -/
def hardSplitLoop : List (List Char) → List Char → (List (List Char) × List Char)
  | [], sb => ([], sb)
  | part :: rest, sb =>
      if part.length > HARD_LIMIT_SIZE then
        let r := hardSplitLoop rest []
        ((if sb ≠ [] then [sb] else []) ++ forceSplitF part ++ r.1, r.2)
      else if sb.length + part.length > CHUNK_MAX_SIZE then
        let r := hardSplitLoop rest part
        ((if sb ≠ [] then [sb] else []) ++ r.1, r.2)
      else
        hardSplitLoop rest (sb ++ part)

/-- The whole hard-split branch for one long line (len(line) >= CHUNK_MAX_SIZE):
run the sub_parts loop and flush the final sub_buffer if nonempty. -/
def hardSplit (line : List Char) : List (List Char) :=
  let r := hardSplitLoop (reSplit line) []
  r.1 ++ (if r.2 ≠ [] then [r.2] else [])

/-- The main line loop of split_text_smart_v3, instrumented with a
provenance tag: a chunk tagged `true` was appended from the
line-accumulation `buffer`; a chunk tagged `false` was appended directly
(an oversize line, or a piece produced by the hard-split branch).
Erasing the tags gives exactly the loop of the source. -/
def splitLoopT : List (List Char) → List (Bool × List Char) → List Char → List (Bool × List Char)
  | [], chunks, buffer =>
      chunks ++ (if buffer ≠ [] then [(true, buffer)] else [])
  | rawLine :: rest, chunks, buffer =>
      let line := pyStrip rawLine
      if line = [] then splitLoopT rest chunks buffer
      else if buffer.length + line.length < CHUNK_MIN_SIZE then
        splitLoopT rest chunks (buffer ++ line ++ ['，'])
      else
        let chunks1 := chunks ++ (if buffer ≠ [] then [(true, buffer)] else [])
        if line.length < CHUNK_MAX_SIZE then
          if line.length > CHUNK_MIN_SIZE then
            splitLoopT rest (chunks1 ++ [(false, line)]) []
          else
            splitLoopT rest chunks1 (line ++ ['，'])
        else
          splitLoopT rest (chunks1 ++ (hardSplit line).map (fun c => (false, c))) []

/-- split_text_smart_v3 with provenance tags on the chunks. -/
def split_text_smart_v3_tagged (t : List Char) : List (Bool × List Char) :=
  let text := normalizeText t
  if pyStrip text = [] then [] else splitLoopT (pySplitLines text) [] []

/-- split_text_smart_v3: the tagged segmenter with the provenance tags
erased; this is the function of the source. -/
def split_text_smart_v3 (t : List Char) : List (List Char) :=
  (split_text_smart_v3_tagged t).map Prod.snd

/-- The reference description for C4: the contribution of one raw line
of the normalized text to the filtered source content — its stripped
text when non-blank, followed by the injected '，' separator exactly
when the stripped line has at most CHUNK_MIN_SIZE characters (the
buffer paths of the loop); blank lines contribute nothing. -/
def lineContrib (raw : List Char) : List Char :=
  let l := pyStrip raw
  if l = [] then []
  else if l.length ≤ CHUNK_MIN_SIZE then l ++ ['，'] else l

/-- Helper for C10: the invariant carried by the line-accumulation
buffer — empty, or ending in the injected '，' with at most
CHUNK_MIN_SIZE + 1 characters. -/
def bufferInv (b : List Char) : Prop :=
  b = [] ∨ (b.getLast? = some '，' ∧ b.length ≤ CHUNK_MIN_SIZE + 1)

/- ## Session state: stop_playback -/

/-- The cross-thread mutable state guarded by the lock: the is_playing
flag and the handle of the active ffplay process (a pid, or none). -/
structure SessionState where
  is_playing : Bool
  ffplay_process : Option Nat
deriving DecidableEq

/-- Result of one stop_playback call: the state it leaves behind and the
process handle it took out to terminate (none when there was none). -/
structure StopResult where
  state : SessionState
  terminated : Option Nat
deriving DecidableEq

/-- stop_playback: under the lock, clear is_playing when clear_flags is
set, take the process handle out of ffplay_process and null the global;
the taken handle (if any) is then terminated outside the lock.  The
unconditional platform-wide sweep kill does not touch the session state
and is not modelled. -/
def stop_playback (clear_flags : Bool) (s : SessionState) : StopResult :=
  { state := { is_playing := if clear_flags then false else s.is_playing
             , ffplay_process := none }
  , terminated := s.ffplay_process }

/- ## Player startup: the atempo filter chain -/

/-- Configuration constant SPEED = 1.5 from the source, as a rational. -/
def SPEED : ℚ := 3 / 2

/-- The -af argument computed at player startup, as the list of numeric
atempo multipliers it denotes:
`f"atempo=SPEED"` (one stage) when SPEED < 2.0; otherwise the source
emits the plain (non-f) string literal "atempo=2.0,atempo=" followed by
doubled braces around SPEED/2, i.e. fixed literal text that names no
numeric residual stage — modelled as `none` (no well-formed chain). -/
def atempoChain (speed : ℚ) : Option (List ℚ) :=
  if speed < 2 then some [speed] else none

/-- Modelled from the spec: the chained-doubling construction it
describes — repeatedly apply a x2 stage while the remaining factor
exceeds 2, then apply the residual factor once.  `fuel` bounds the
number of doublings (the construction at speed s needs at most
log2 of s many). -/
def specDoublingChain : Nat → ℚ → List ℚ
  | 0, s => [s]
  | fuel + 1, s => if 2 < s then 2 :: specDoublingChain fuel (s / 2) else [s]

/- ## Producer: audio_producer -/

/-- One event of the TTS response stream of one fetch attempt: an audio
frame carrying opaque data, a backend-reported error
(chunk["type"] == "error", raised as an exception), or a per-item
timeout of asyncio.wait_for (raised as an exception).  The end of the
event list is StopAsyncIteration (natural end of stream). -/
inductive TtsEvent where
  | audio (d : Nat)
  | ttsError
  | timeout
deriving DecidableEq

/-- An item written to data_queue: an audio frame or the end-of-stream
sentinel (None in the source). -/
inductive QItem where
  | frame (d : Nat)
  | sentinel
deriving DecidableEq

/-- One observable step of the producer: a queue write, the 1 s cooldown
sleep between retries, or the start of fetch attempt `a` for chunk `i`. -/
inductive PEv where
  | putQ (q : QItem)
  | sleepCooldown
  | startAttempt (i a : Nat)
deriving DecidableEq

/-- Result of the inner streaming loop of one attempt: the trace of
events it performed, the read-counter afterwards, and whether the
attempt aborted (raised) rather than reached the end of the stream. -/
structure StreamRes where
  trace : List PEv
  time : Nat
  aborted : Bool

/-- The inner `while True` loop of one fetch attempt.  `flags t` is the
value the t-th read of the shared is_playing flag returns; every read
advances the counter.  Per iteration: read is_playing (break on false —
the success path), otherwise take the next stream event.  An audio
frame enters the put loop, which reads is_playing once more and
enqueues the frame only when it is still true (the bounded queue is
modelled as accepting the put within its timeout).  An error event or a
timeout raises, aborting the attempt. -/
def runStream (flags : Nat → Bool) : List TtsEvent → Nat → StreamRes
  | evs, t =>
    if flags t = false then ⟨[], t + 1, false⟩
    else
      match evs with
      | [] => ⟨[], t + 1, false⟩
      | .audio d :: rest =>
          let r := runStream flags rest (t + 2)
          if flags (t + 1) = true then ⟨.putQ (.frame d) :: r.trace, r.time, r.aborted⟩
          else r
      | .ttsError :: _ => ⟨[], t + 1, true⟩
      | .timeout :: _ => ⟨[], t + 1, true⟩

/-- Configuration constant max_retries = 3 from audio_producer. -/
def max_retries : Nat := 3

/-- The retry loop `for attempt in range(max_retries)` of audio_producer
for one chunk, as a loop over the list of remaining attempt indices.
On a successful attempt (no abort): break.  On an abort: read
is_playing; if false, break at once (no sleep, no further attempt);
otherwise if this is not the last attempt (attempt < max_retries - 1),
sleep the 1 s cooldown and go on to the next attempt, else give the
chunk up.  `evsOf a` is the response stream the backend serves for
attempt `a`; `i` tags the trace with the chunk index. -/
def runAttempts (flags : Nat → Bool) (evsOf : Nat → List TtsEvent) (i : Nat) :
    List Nat → Nat → (List PEv × Nat)
  | [], t => ([], t)
  | a :: rest, t =>
    let r := runStream flags (evsOf a) t
    if r.aborted = false then (.startAttempt i a :: r.trace, r.time)
    else if flags r.time = false then (.startAttempt i a :: r.trace, r.time + 1)
    else if rest ≠ [] then
      let r2 := runAttempts flags evsOf i rest (r.time + 1)
      (.startAttempt i a :: r.trace ++ .sleepCooldown :: r2.1, r2.2)
    else (.startAttempt i a :: r.trace, r.time + 1)

/-- The outer `for i, chunk_text in enumerate(text_chunks)` loop of
audio_producer, as a loop over the list of chunk indices: before each
chunk, read is_playing and break when false; then run the retry loop
for the chunk over the attempt indices range(max_retries).
`oracle i a` is the response stream served for attempt `a` of chunk
`i`. -/
def runChunks (flags : Nat → Bool) (oracle : Nat → Nat → List TtsEvent) :
    List Nat → Nat → (List PEv × Nat)
  | [], t => ([], t)
  | i :: rest, t =>
    if flags t = false then ([], t + 1)
    else
      let r := runAttempts flags (oracle i) i (List.range max_retries) (t + 1)
      let r2 := runChunks flags oracle rest r.2
      (r.1 ++ r2.1, r2.2)

/-- audio_producer on `n` chunks: the chunk loop (whose body is guarded
by the catch-all try/except, so an internal fault only cuts the loop
trace short), followed by the `finally` block.  The only queue write of
the finally block is the bounded data_queue.put(None, timeout=2),
itself wrapped in a bare try/except that swallows queue.Full:
`sentinelPutOk` is the outcome of that bounded put — true when it
completed within its 2 s timeout (the sentinel is enqueued), false when
the queue stayed full throughout the timeout (queue.Full is raised and
swallowed, and no sentinel is written). -/
def audio_producer (flags : Nat → Bool) (oracle : Nat → Nat → List TtsEvent)
    (sentinelPutOk : Bool) (n : Nat) : List PEv :=
  (runChunks flags oracle (List.range n) 0).1
    ++ (if sentinelPutOk then [.putQ .sentinel] else [])

/-- The queue writes of a producer trace, in order. -/
def queueWrites (tr : List PEv) : List QItem :=
  tr.filterMap fun e => match e with | .putQ q => some q | _ => none

/-- Whether one stream event aborts the attempt. -/
def isFailEvent : TtsEvent → Bool
  | .audio _ => false
  | .ttsError => true
  | .timeout => true

/-- A response stream on which the attempt fails (under an uncancelled
session): it contains a backend error or a timeout. -/
def streamFails (evs : List TtsEvent) : Bool :=
  evs.any isFailEvent

/-- The flag history of a session that is never cancelled. -/
def flagsTrue : Nat → Bool := fun _ => true

/- ## Concrete scenarios used in the theorems below -/

/-- Backend behaviour in which every attempt for chunk 0 streams one
audio frame and then times out, while every other chunk succeeds with
an empty stream. -/
def oracleC5 : Nat → Nat → List TtsEvent :=
  fun i _ => if i = 0 then [.audio 7, .timeout] else []

/-- A flag history that is true for the very first read and false from
then on: the session is cancelled immediately after the first flag
check. -/
def flagsOnce : Nat → Bool := fun t => t == 0

/-- Backend behaviour in which every attempt times out at once. -/
def evsTimeout : Nat → List TtsEvent := fun _ => [.timeout]

/-- The source text of the C10 counterexample: a 301-character first
line beginning with the two characters of the later buffer chunk,
followed by the one-character line "a". -/
def tC10 : List Char :=
  'a' :: '，' :: (List.replicate 299 'b' ++ '\n' :: ['a'])

/- ## Lemmas on the segmenter -/

theorem forceSplitF_mem (l : List Char) :
    ∀ c ∈ forceSplitF l, c ≠ [] ∧ c.length ≤ HARD_LIMIT_SIZE := by
  induction l using forceSplitF.induct with
  | case1 => simp [forceSplitF]
  | case2 l h ih =>
      intro c hc
      rw [forceSplitF] at hc
      simp only [dif_neg h, List.mem_cons] at hc
      rcases hc with rfl | hc
      · refine ⟨?_, ?_⟩
        · simp [List.take_eq_nil_iff, h, HARD_LIMIT_SIZE]
        · simpa using List.length_take_le HARD_LIMIT_SIZE l
      · exact ih c hc

theorem hardSplitLoop_mem (parts : List (List Char)) (sb : List Char)
    (hsb : sb.length ≤ HARD_LIMIT_SIZE) :
    (∀ c ∈ (hardSplitLoop parts sb).1, c ≠ [] ∧ c.length ≤ HARD_LIMIT_SIZE) ∧
    (hardSplitLoop parts sb).2.length ≤ HARD_LIMIT_SIZE := by
  induction parts generalizing sb with
  | nil => simpa [hardSplitLoop] using hsb
  | cons part rest ih =>
      have h1000 : HARD_LIMIT_SIZE = 1000 := rfl
      have h800 : CHUNK_MAX_SIZE = 800 := rfl
      by_cases h1 : part.length > HARD_LIMIT_SIZE
      · have hrec := ih [] (by simp)
        simp only [hardSplitLoop, if_pos h1]
        refine ⟨?_, hrec.2⟩
        intro c hc
        simp only [List.mem_append] at hc
        rcases hc with (hc | hc) | hc
        · rcases em (sb ≠ []) with hne | hne
          · rw [if_pos hne] at hc
            simp only [List.mem_singleton] at hc
            subst hc
            exact ⟨by simpa using hne, hsb⟩
          · rw [if_neg hne] at hc
            simp at hc
        · exact forceSplitF_mem part c hc
        · exact hrec.1 c hc
      · by_cases h2 : sb.length + part.length > CHUNK_MAX_SIZE
        · have hpart : part.length ≤ HARD_LIMIT_SIZE := by omega
          have hrec := ih part hpart
          simp only [hardSplitLoop, if_neg h1, if_pos h2]
          refine ⟨?_, hrec.2⟩
          intro c hc
          simp only [List.mem_append] at hc
          rcases hc with hc | hc
          · rcases em (sb ≠ []) with hne | hne
            · rw [if_pos hne] at hc
              simp only [List.mem_singleton] at hc
              subst hc
              exact ⟨by simpa using hne, hsb⟩
            · rw [if_neg hne] at hc
              simp at hc
          · exact hrec.1 c hc
        · have hgrow : (sb ++ part).length ≤ HARD_LIMIT_SIZE := by
            simp only [List.length_append]
            omega
          have hrec := ih (sb ++ part) hgrow
          simpa only [hardSplitLoop, if_neg h1, if_neg h2] using hrec

theorem hardSplit_mem (line : List Char) :
    ∀ c ∈ hardSplit line, c ≠ [] ∧ c.length ≤ HARD_LIMIT_SIZE := by
  intro c hc
  have h := hardSplitLoop_mem (reSplit line) [] (by simp)
  simp only [hardSplit, List.mem_append] at hc
  rcases hc with hc | hc
  · exact h.1 c hc
  · rcases em ((hardSplitLoop (reSplit line) []).2 ≠ []) with hne | hne
    · rw [if_pos hne] at hc
      simp only [List.mem_singleton] at hc
      subst hc
      exact ⟨by simpa using hne, h.2⟩
    · rw [if_neg hne] at hc
      simp at hc

theorem splitLoopT_mem (lines : List (List Char)) (chunks : List (Bool × List Char))
    (buffer : List Char)
    (hchunks : ∀ p ∈ chunks, p.2 ≠ [] ∧ p.2.length ≤ HARD_LIMIT_SIZE)
    (hbuf : buffer.length ≤ CHUNK_MIN_SIZE + 1) :
    ∀ p ∈ splitLoopT lines chunks buffer, p.2 ≠ [] ∧ p.2.length ≤ HARD_LIMIT_SIZE := by
  induction lines generalizing chunks buffer with
  | nil =>
      intro p hp
      simp only [splitLoopT, List.mem_append] at hp
      rcases hp with hp | hp
      · exact hchunks p hp
      · rcases em (buffer ≠ []) with hne | hne
        · rw [if_pos hne] at hp
          simp only [List.mem_singleton] at hp
          subst hp
          dsimp only
          refine ⟨by simpa using hne, ?_⟩
          have : CHUNK_MIN_SIZE + 1 ≤ HARD_LIMIT_SIZE := by decide
          omega
        · rw [if_neg hne] at hp
          simp at hp
  | cons rawLine rest ih =>
      have hflush : ∀ p ∈ chunks ++ (if buffer ≠ [] then [(true, buffer)] else []),
          p.2 ≠ [] ∧ p.2.length ≤ HARD_LIMIT_SIZE := by
        intro p hp
        simp only [List.mem_append] at hp
        rcases hp with hp | hp
        · exact hchunks p hp
        · rcases em (buffer ≠ []) with hne | hne
          · rw [if_pos hne] at hp
            simp only [List.mem_singleton] at hp
            subst hp
            dsimp only
            refine ⟨by simpa using hne, ?_⟩
            have : CHUNK_MIN_SIZE + 1 ≤ HARD_LIMIT_SIZE := by decide
            omega
          · rw [if_neg hne] at hp
            simp at hp
      by_cases hblank : pyStrip rawLine = []
      · simpa only [splitLoopT, if_pos hblank] using ih chunks buffer hchunks hbuf
      · set line := pyStrip rawLine with hline
        by_cases hsmall : buffer.length + line.length < CHUNK_MIN_SIZE
        · have hb2 : (buffer ++ line ++ ['，']).length ≤ CHUNK_MIN_SIZE + 1 := by
            simp only [List.length_append, List.length_singleton]
            omega
          simpa only [splitLoopT, if_neg hblank, if_pos hsmall]
            using ih chunks (buffer ++ line ++ ['，']) hchunks hb2
        · by_cases hmax : line.length < CHUNK_MAX_SIZE
          · by_cases hmin : line.length > CHUNK_MIN_SIZE
            · have hdir : ∀ p ∈ (chunks ++ (if buffer ≠ [] then [(true, buffer)] else []))
                  ++ [(false, line)], p.2 ≠ [] ∧ p.2.length ≤ HARD_LIMIT_SIZE := by
                intro p hp
                simp only [List.mem_append] at hp
                rcases hp with hp | hp
                · exact hflush p (by simpa using hp)
                · simp only [List.mem_singleton] at hp
                  subst hp
                  dsimp only
                  refine ⟨?_, ?_⟩
                  · intro hnil
                    rw [hnil] at hmin
                    simp [CHUNK_MIN_SIZE] at hmin
                  · have : CHUNK_MAX_SIZE ≤ HARD_LIMIT_SIZE := by decide
                    omega
              simpa only [splitLoopT, if_neg hblank, if_neg hsmall, if_pos hmax, if_pos hmin]
                using ih _ [] hdir (by simp)
            · have hb2 : (line ++ ['，']).length ≤ CHUNK_MIN_SIZE + 1 := by
                simp only [List.length_append, List.length_singleton]
                omega
              simpa only [splitLoopT, if_neg hblank, if_neg hsmall, if_pos hmax, if_neg hmin]
                using ih _ (line ++ ['，']) hflush hb2
          · have hhard : ∀ p ∈ (chunks ++ (if buffer ≠ [] then [(true, buffer)] else []))
                ++ (hardSplit line).map (fun c => (false, c)),
                p.2 ≠ [] ∧ p.2.length ≤ HARD_LIMIT_SIZE := by
              intro p hp
              simp only [List.mem_append] at hp
              rcases hp with hp | hp
              · exact hflush p (by simpa using hp)
              · simp only [List.mem_map] at hp
                obtain ⟨c, hc, rfl⟩ := hp
                exact hardSplit_mem line c hc
            simpa only [splitLoopT, if_neg hblank, if_neg hsmall, if_neg hmax]
              using ih _ [] hhard (by simp)

theorem splitLoopT_buffer_mem (lines : List (List Char)) (chunks : List (Bool × List Char))
    (buffer : List Char)
    (hchunks : ∀ c, (true, c) ∈ chunks → c.getLast? = some '，' ∧ c.length ≤ CHUNK_MIN_SIZE + 1)
    (hbuf : bufferInv buffer) :
    ∀ c, (true, c) ∈ splitLoopT lines chunks buffer →
      c.getLast? = some '，' ∧ c.length ≤ CHUNK_MIN_SIZE + 1 := by
  induction lines generalizing chunks buffer with
  | nil =>
      intro c hc
      simp only [splitLoopT, List.mem_append] at hc
      rcases hc with hc | hc
      · exact hchunks c hc
      · rcases em (buffer ≠ []) with hne | hne
        · rw [if_pos hne] at hc
          simp only [List.mem_singleton, Prod.mk.injEq, true_and] at hc
          subst hc
          rcases hbuf with h | h
          · exact absurd h hne
          · exact h
        · rw [if_neg hne] at hc
          simp at hc
  | cons rawLine rest ih =>
      have hflush : ∀ c, (true, c) ∈ chunks ++ (if buffer ≠ [] then [(true, buffer)] else []) →
          c.getLast? = some '，' ∧ c.length ≤ CHUNK_MIN_SIZE + 1 := by
        intro c hc
        simp only [List.mem_append] at hc
        rcases hc with hc | hc
        · exact hchunks c hc
        · rcases em (buffer ≠ []) with hne | hne
          · rw [if_pos hne] at hc
            simp only [List.mem_singleton, Prod.mk.injEq, true_and] at hc
            subst hc
            rcases hbuf with h | h
            · exact absurd h hne
            · exact h
          · rw [if_neg hne] at hc
            simp at hc
      intro c hc
      by_cases hblank : pyStrip rawLine = []
      · rw [splitLoopT, if_pos hblank] at hc
        exact ih chunks buffer hchunks hbuf c hc
      · set line := pyStrip rawLine with hline
        by_cases hsmall : buffer.length + line.length < CHUNK_MIN_SIZE
        · rw [splitLoopT, if_neg hblank, if_pos hsmall] at hc
          refine ih chunks (buffer ++ line ++ ['，']) hchunks ?_ c hc
          right
          constructor
          · exact List.getLast?_concat _
          · simp only [List.length_append, List.length_singleton]
            omega
        · by_cases hmax : line.length < CHUNK_MAX_SIZE
          · by_cases hmin : line.length > CHUNK_MIN_SIZE
            · rw [splitLoopT, if_neg hblank, if_neg hsmall, if_pos hmax, if_pos hmin] at hc
              refine ih _ [] ?_ (Or.inl rfl) c hc
              intro c' hc'
              simp only [List.mem_append, List.mem_singleton] at hc'
              rcases hc' with hc' | hc'
              · exact hflush c' (List.mem_append.mpr hc')
              · simp at hc'
            · rw [splitLoopT, if_neg hblank, if_neg hsmall, if_pos hmax, if_neg hmin] at hc
              refine ih _ (line ++ ['，']) hflush ?_ c hc
              right
              constructor
              · exact List.getLast?_concat _
              · simp only [List.length_append, List.length_singleton]
                omega
          · rw [splitLoopT, if_neg hblank, if_neg hsmall, if_neg hmax] at hc
            refine ih _ [] ?_ (Or.inl rfl) c hc
            intro c' hc'
            simp only [List.mem_append, List.mem_map] at hc'
            rcases hc' with hc' | hc'
            · exact hflush c' (List.mem_append.mpr hc')
            · obtain ⟨d, _, hd⟩ := hc'
              simp at hd

theorem flatten_flush (sb : List Char) :
    (if sb ≠ [] then [sb] else []).flatten = sb := by
  rcases em (sb ≠ []) with hne | hne
  · rw [if_pos hne]
    simp
  · rw [if_neg hne]
    push_neg at hne
    simp [hne]

theorem reSplitAux_flatten (l acc : List Char) :
    (reSplitAux l acc).flatten = acc.reverse ++ l := by
  induction l generalizing acc with
  | nil => simp [reSplitAux]
  | cons c rest ih =>
      by_cases h : isSplitChar c
      · simp [reSplitAux, h, ih]
      · simp [reSplitAux, h, ih]

theorem reSplit_flatten (l : List Char) : (reSplit l).flatten = l := by
  simp [reSplit, reSplitAux_flatten]

theorem forceSplitF_flatten (l : List Char) : (forceSplitF l).flatten = l := by
  induction l using forceSplitF.induct with
  | case1 => simp [forceSplitF]
  | case2 l h ih =>
      rw [forceSplitF, dif_neg h]
      simp [ih]

theorem hardSplitLoop_flatten (parts : List (List Char)) (sb : List Char) :
    (hardSplitLoop parts sb).1.flatten ++ (hardSplitLoop parts sb).2 = sb ++ parts.flatten := by
  induction parts generalizing sb with
  | nil => simp [hardSplitLoop]
  | cons part rest ih =>
      by_cases h1 : part.length > HARD_LIMIT_SIZE
      · simp only [hardSplitLoop, if_pos h1, List.flatten_append, List.flatten_cons,
          flatten_flush, forceSplitF_flatten]
        rw [List.append_assoc, List.append_assoc, ih []]
        simp
      · by_cases h2 : sb.length + part.length > CHUNK_MAX_SIZE
        · simp only [hardSplitLoop, if_neg h1, if_pos h2, List.flatten_append,
            flatten_flush, List.flatten_cons]
          rw [List.append_assoc, ih part]
        · simp only [hardSplitLoop, if_neg h1, if_neg h2, List.flatten_cons]
          rw [ih (sb ++ part)]
          simp

theorem hardSplit_flatten (line : List Char) : (hardSplit line).flatten = line := by
  have h := hardSplitLoop_flatten (reSplit line) []
  simp only [hardSplit, List.flatten_append, flatten_flush]
  simpa [reSplit_flatten] using h

theorem map_snd_flush_flatten (b : List Char) :
    (List.map Prod.snd (if b = [] then ([] : List (Bool × List Char)) else [(true, b)])).flatten
      = b := by
  by_cases h : b = [] <;> simp [h]

theorem splitLoopT_flatten (lines : List (List Char)) (chunks : List (Bool × List Char))
    (buffer : List Char) :
    ((splitLoopT lines chunks buffer).map Prod.snd).flatten
      = (chunks.map Prod.snd).flatten ++ buffer ++ (lines.map lineContrib).flatten := by
  induction lines generalizing chunks buffer with
  | nil =>
      simp only [splitLoopT, List.map_nil, List.flatten_nil, List.append_nil,
        List.map_append, List.flatten_append]
      rcases em (buffer ≠ []) with hne | hne
      · rw [if_pos hne]
        simp
      · rw [if_neg hne]
        push_neg at hne
        simp [hne]
  | cons rawLine rest ih =>
      have hCM : CHUNK_MIN_SIZE = 300 := rfl
      have hCX : CHUNK_MAX_SIZE = 800 := rfl
      by_cases hblank : pyStrip rawLine = []
      · rw [splitLoopT, if_pos hblank, ih]
        simp [lineContrib, hblank]
      · set line := pyStrip rawLine with hline
        by_cases hsmall : buffer.length + line.length < CHUNK_MIN_SIZE
        · rw [splitLoopT, if_neg hblank, if_pos hsmall, ih]
          have hcl : lineContrib rawLine = line ++ ['，'] := by
            rw [lineContrib, ← hline, if_neg hblank, if_pos (by omega)]
          simp [hcl, List.append_assoc]
        · by_cases hmax : line.length < CHUNK_MAX_SIZE
          · by_cases hmin : line.length > CHUNK_MIN_SIZE
            · rw [splitLoopT, if_neg hblank, if_neg hsmall, if_pos hmax, if_pos hmin, ih]
              have hcl : lineContrib rawLine = line := by
                rw [lineContrib, ← hline, if_neg hblank, if_neg (by omega)]
              simp [hcl, flatten_flush, map_snd_flush_flatten, List.append_assoc]
            · rw [splitLoopT, if_neg hblank, if_neg hsmall, if_pos hmax, if_neg hmin, ih]
              have hcl : lineContrib rawLine = line ++ ['，'] := by
                rw [lineContrib, ← hline, if_neg hblank, if_pos (by omega)]
              simp [hcl, flatten_flush, map_snd_flush_flatten, List.append_assoc]
          · rw [splitLoopT, if_neg hblank, if_neg hsmall, if_neg hmax, ih]
            have hcl : lineContrib rawLine = line := by
              rw [lineContrib, ← hline, if_neg hblank, if_neg (by omega)]
            simp [hcl, flatten_flush, map_snd_flush_flatten, hardSplit_flatten,
              List.append_assoc, List.comp_map, Function.comp]

theorem pyStrip_eq_nil_of_all (l : List Char) (h : ∀ c ∈ l, isPySpace c) :
    pyStrip l = [] := by
  have h1 : l.dropWhile isPySpace = [] := List.dropWhile_eq_nil_iff.mpr h
  simp [pyStrip, h1]

theorem pyStrip_nil_all (l : List Char) (h : pyStrip l = []) :
    ∀ c ∈ l, isPySpace c := by
  have h1 : (l.dropWhile isPySpace).reverse.dropWhile isPySpace = [] := by
    have := congrArg List.reverse h
    simpa [pyStrip] using this
  have h2 : ∀ c ∈ (l.dropWhile isPySpace).reverse, isPySpace c :=
    List.dropWhile_eq_nil_iff.mp h1
  have h3 : ∀ c ∈ l.dropWhile isPySpace, isPySpace c := by
    intro c hc
    exact h2 c (List.mem_reverse.mpr hc)
  intro c hc
  rw [← List.takeWhile_append_dropWhile (p := isPySpace) (l := l)] at hc
  rcases List.mem_append.mp hc with hc | hc
  · exact List.mem_takeWhile_imp hc
  · exact h3 c hc

theorem pySplitLines_mem (t : List Char) :
    ∀ line ∈ pySplitLines t, ∀ c ∈ line, c ∈ t := by
  induction t with
  | nil =>
      intro line h c hc
      simp only [pySplitLines, List.mem_singleton] at h
      subst h
      simp at hc
  | cons a rest ih =>
      intro line h c hc
      by_cases ha : a = '\n'
      · rw [pySplitLines, if_pos ha] at h
        rcases List.mem_cons.mp h with rfl | h
        · simp at hc
        · exact List.mem_cons_of_mem a (ih line h c hc)
      · rw [pySplitLines, if_neg ha] at h
        cases hrec : pySplitLines rest with
        | nil =>
            rw [hrec] at h
            simp only [List.mem_singleton] at h
            subst h
            simp only [List.mem_singleton] at hc
            simp [hc]
        | cons l ls =>
            rw [hrec] at h
            rcases List.mem_cons.mp h with rfl | h
            · rcases List.mem_cons.mp hc with rfl | hc
              · exact List.mem_cons_self c rest
              · refine List.mem_cons_of_mem a (ih l ?_ c hc)
                rw [hrec]
                exact List.mem_cons_self l ls
            · refine List.mem_cons_of_mem a (ih line ?_ c hc)
              rw [hrec]
              exact List.mem_cons_of_mem l h

/-- C2: every chunk of the segmenter is nonempty and at most
HARD_LIMIT_SIZE characters long. -/
theorem split_chunk_bounds (t : List Char) :
    ∀ c ∈ split_text_smart_v3 t, c ≠ [] ∧ c.length ≤ HARD_LIMIT_SIZE := by
  intro c hc
  simp only [split_text_smart_v3, List.mem_map] at hc
  obtain ⟨p, hp, rfl⟩ := hc
  simp only [split_text_smart_v3_tagged] at hp
  by_cases hg : pyStrip (normalizeText t) = []
  · rw [if_pos hg] at hp
    simp at hp
  · rw [if_neg hg] at hp
    exact splitLoopT_mem _ [] [] (by simp) (by simp) p hp

/- ## Lemmas on the producer -/

theorem runStream_nil (flags : Nat → Bool) (t : Nat) :
    runStream flags [] t
      = if flags t = false then ⟨[], t + 1, false⟩ else ⟨[], t + 1, false⟩ := by
  rw [runStream.eq_def]

theorem runStream_audio (flags : Nat → Bool) (d : Nat) (rest : List TtsEvent) (t : Nat) :
    runStream flags (.audio d :: rest) t
      = if flags t = false then ⟨[], t + 1, false⟩
        else if flags (t + 1) = true then
          ⟨.putQ (.frame d) :: (runStream flags rest (t + 2)).trace,
            (runStream flags rest (t + 2)).time, (runStream flags rest (t + 2)).aborted⟩
        else runStream flags rest (t + 2) := by
  rw [runStream.eq_def]

theorem runStream_ttsError (flags : Nat → Bool) (rest : List TtsEvent) (t : Nat) :
    runStream flags (.ttsError :: rest) t
      = if flags t = false then ⟨[], t + 1, false⟩ else ⟨[], t + 1, true⟩ := by
  rw [runStream.eq_def]

theorem runStream_timeout (flags : Nat → Bool) (rest : List TtsEvent) (t : Nat) :
    runStream flags (.timeout :: rest) t
      = if flags t = false then ⟨[], t + 1, false⟩ else ⟨[], t + 1, true⟩ := by
  rw [runStream.eq_def]

theorem runStream_trace_frames (flags : Nat → Bool) (evs : List TtsEvent) (t : Nat) :
    ∀ e ∈ (runStream flags evs t).trace, ∃ d, e = .putQ (.frame d) := by
  induction evs generalizing t with
  | nil =>
      intro e he
      rw [runStream_nil] at he
      by_cases hf : flags t = false
      · rw [if_pos hf] at he
        simp at he
      · rw [if_neg hf] at he
        simp at he
  | cons ev rest ih =>
      intro e he
      cases ev with
      | audio d =>
          rw [runStream_audio] at he
          by_cases hf : flags t = false
          · rw [if_pos hf] at he
            simp at he
          · rw [if_neg hf] at he
            by_cases hp : flags (t + 1) = true
            · rw [if_pos hp] at he
              rcases List.mem_cons.mp he with rfl | he
              · exact ⟨d, rfl⟩
              · exact ih (t + 2) e he
            · rw [if_neg hp] at he
              exact ih (t + 2) e he
      | ttsError =>
          rw [runStream_ttsError] at he
          by_cases hf : flags t = false
          · rw [if_pos hf] at he
            simp at he
          · rw [if_neg hf] at he
            simp at he
      | timeout =>
          rw [runStream_timeout] at he
          by_cases hf : flags t = false
          · rw [if_pos hf] at he
            simp at he
          · rw [if_neg hf] at he
            simp at he

theorem runAttempts_head (flags : Nat → Bool) (evsOf : Nat → List TtsEvent) (i a : Nat)
    (rest : List Nat) (t : Nat) :
    ∃ tl, (runAttempts flags evsOf i (a :: rest) t).1 = .startAttempt i a :: tl := by
  rw [runAttempts]
  by_cases h1 : (runStream flags (evsOf a) t).aborted = false
  · rw [if_pos h1]
    exact ⟨_, rfl⟩
  · rw [if_neg h1]
    by_cases h2 : flags (runStream flags (evsOf a) t).time = false
    · rw [if_pos h2]
      exact ⟨_, rfl⟩
    · rw [if_neg h2]
      by_cases h3 : rest ≠ []
      · rw [if_pos h3]
        exact ⟨_, rfl⟩
      · rw [if_neg h3]
        exact ⟨_, rfl⟩

theorem runAttempts_shape (flags : Nat → Bool) (evsOf : Nat → List TtsEvent) (i : Nat)
    (atts : List Nat) (t : Nat) :
    ∀ e ∈ (runAttempts flags evsOf i atts t).1,
      (∃ d, e = .putQ (.frame d)) ∨ e = .sleepCooldown ∨
      (∃ a ∈ atts, e = .startAttempt i a) := by
  induction atts generalizing t with
  | nil =>
      intro e he
      simp [runAttempts] at he
  | cons a rest ih =>
      intro e he
      rw [runAttempts] at he
      by_cases h1 : (runStream flags (evsOf a) t).aborted = false
      · rw [if_pos h1] at he
        rcases List.mem_cons.mp he with rfl | he
        · exact Or.inr (Or.inr ⟨a, by simp, rfl⟩)
        · exact Or.inl (runStream_trace_frames flags (evsOf a) t e he)
      · rw [if_neg h1] at he
        by_cases h2 : flags (runStream flags (evsOf a) t).time = false
        · rw [if_pos h2] at he
          rcases List.mem_cons.mp he with rfl | he
          · exact Or.inr (Or.inr ⟨a, by simp, rfl⟩)
          · exact Or.inl (runStream_trace_frames flags (evsOf a) t e he)
        · rw [if_neg h2] at he
          by_cases h3 : rest ≠ []
          · rw [if_pos h3] at he
            rcases List.mem_cons.mp he with rfl | he
            · exact Or.inr (Or.inr ⟨a, by simp, rfl⟩)
            · rcases List.mem_append.mp he with he | he
              · exact Or.inl (runStream_trace_frames flags (evsOf a) t e he)
              · rcases List.mem_cons.mp he with rfl | he
                · exact Or.inr (Or.inl rfl)
                · rcases ih _ e he with h | h | ⟨a', ha', rfl⟩
                  · exact Or.inl h
                  · exact Or.inr (Or.inl h)
                  · exact Or.inr (Or.inr ⟨a', List.mem_cons_of_mem a ha', rfl⟩)
          · rw [if_neg h3] at he
            rcases List.mem_cons.mp he with rfl | he
            · exact Or.inr (Or.inr ⟨a, by simp, rfl⟩)
            · exact Or.inl (runStream_trace_frames flags (evsOf a) t e he)

theorem runChunks_shape (flags : Nat → Bool) (oracle : Nat → Nat → List TtsEvent)
    (idxs : List Nat) (t : Nat) :
    ∀ e ∈ (runChunks flags oracle idxs t).1,
      (∃ d, e = .putQ (.frame d)) ∨ e = .sleepCooldown ∨
      (∃ j ∈ idxs, ∃ a ∈ List.range max_retries, e = .startAttempt j a) := by
  induction idxs generalizing t with
  | nil =>
      intro e he
      simp [runChunks] at he
  | cons j rest ih =>
      intro e he
      rw [runChunks] at he
      by_cases hf : flags t = false
      · rw [if_pos hf] at he
        simp at he
      · rw [if_neg hf] at he
        rcases List.mem_append.mp he with he | he
        · rcases runAttempts_shape flags (oracle j) j (List.range max_retries) (t + 1) e he
            with h | h | ⟨a, ha, rfl⟩
          · exact Or.inl h
          · exact Or.inr (Or.inl h)
          · exact Or.inr (Or.inr ⟨j, by simp, a, ha, rfl⟩)
        · rcases ih _ e he with h | h | ⟨j', hj', a, ha, rfl⟩
          · exact Or.inl h
          · exact Or.inr (Or.inl h)
          · exact Or.inr (Or.inr ⟨j', List.mem_cons_of_mem j hj', a, ha, rfl⟩)

theorem queueWrites_mem (tr : List PEv) (q : QItem) :
    q ∈ queueWrites tr ↔ .putQ q ∈ tr := by
  simp only [queueWrites, List.mem_filterMap]
  constructor
  · rintro ⟨e, he, hq⟩
    cases e with
    | putQ q' =>
        simp only [Option.some.injEq] at hq
        subst hq
        exact he
    | sleepCooldown => simp at hq
    | startAttempt i a => simp at hq
  · intro h
    exact ⟨.putQ q, h, rfl⟩

theorem runChunks_no_sentinel (flags : Nat → Bool) (oracle : Nat → Nat → List TtsEvent)
    (idxs : List Nat) (t : Nat) :
    .putQ .sentinel ∉ (runChunks flags oracle idxs t).1 := by
  intro h
  rcases runChunks_shape flags oracle idxs t _ h with ⟨d, hd⟩ | hd | ⟨j, _, a, _, hd⟩
  · simp at hd
  · simp at hd
  · simp at hd

/-- C1 counterexample: a session run in which the final
data_queue.put(None, timeout=2) times out on a queue that stays full —
queue.Full is raised and swallowed by the bare except — enqueues no
sentinel at all, refuting the claim that exactly one sentinel is
enqueued regardless of how the producer exits. -/
theorem producer_sentinel_lost_counterexample :
    QItem.sentinel ∉ queueWrites (audio_producer flagsTrue oracleC5 false 2) ∧
    (queueWrites (audio_producer flagsTrue oracleC5 false 2)).count QItem.sentinel = 0 :=
  ⟨by decide, by decide⟩

/-- C1 (amended): the loop body of the producer never writes the
sentinel, so a session run enqueues at most one sentinel — exactly one
when the final bounded put completes within its timeout, and that
sentinel is then the last queue write; when the final put times out on
a full queue, the queue.Full is swallowed and no sentinel is enqueued.
This holds for any flag history (cancellation at any point or none) and
any backend behaviour. -/
theorem producer_sentinel_final_put (flags : Nat → Bool)
    (oracle : Nat → Nat → List TtsEvent) (n : Nat) :
    (queueWrites (audio_producer flags oracle true n)).getLast? = some .sentinel ∧
    (queueWrites (audio_producer flags oracle true n)).count .sentinel = 1 ∧
    (queueWrites (audio_producer flags oracle false n)).count .sentinel = 0 := by
  have h0 : (queueWrites (runChunks flags oracle (List.range n) 0).1).count
      QItem.sentinel = 0 := by
    rw [List.count_eq_zero]
    intro hmem
    exact runChunks_no_sentinel flags oracle (List.range n) 0
      ((queueWrites_mem _ _).mp hmem)
  have hsplit : queueWrites (audio_producer flags oracle true n)
      = queueWrites (runChunks flags oracle (List.range n) 0).1 ++ [.sentinel] := by
    simp [audio_producer, queueWrites, List.filterMap_append]
  have hnone : queueWrites (audio_producer flags oracle false n)
      = queueWrites (runChunks flags oracle (List.range n) 0).1 := by
    simp [audio_producer, queueWrites]
  refine ⟨?_, ?_, ?_⟩
  · rw [hsplit]
    exact List.getLast?_concat _
  · rw [hsplit, List.count_append, h0]
    simp
  · rw [hnone, h0]

/- ## flagsTrue invariance and the retry behaviour -/

theorem flagsTrue_ne_false (t : Nat) : ¬ flagsTrue t = false := by
  simp [flagsTrue]

theorem runStream_flagsTrue_shift (evs : List TtsEvent) (t t' : Nat) :
    (runStream flagsTrue evs t).trace = (runStream flagsTrue evs t').trace ∧
    (runStream flagsTrue evs t).aborted = (runStream flagsTrue evs t').aborted := by
  induction evs generalizing t t' with
  | nil =>
      rw [runStream_nil, runStream_nil]
      simp
  | cons ev rest ih =>
      cases ev with
      | audio d =>
          rw [runStream_audio, runStream_audio,
            if_neg (flagsTrue_ne_false t), if_neg (flagsTrue_ne_false t'),
            if_pos (by simp [flagsTrue]), if_pos (by simp [flagsTrue])]
          have h := ih (t + 2) (t' + 2)
          exact ⟨by simp [h.1], h.2⟩
      | ttsError =>
          rw [runStream_ttsError, runStream_ttsError,
            if_neg (flagsTrue_ne_false t), if_neg (flagsTrue_ne_false t')]
          simp
      | timeout =>
          rw [runStream_timeout, runStream_timeout,
            if_neg (flagsTrue_ne_false t), if_neg (flagsTrue_ne_false t')]
          simp

theorem runStream_flagsTrue_aborted (evs : List TtsEvent) (t : Nat) :
    (runStream flagsTrue evs t).aborted = streamFails evs := by
  induction evs generalizing t with
  | nil =>
      rw [runStream_nil]
      simp [streamFails]
  | cons ev rest ih =>
      cases ev with
      | audio d =>
          rw [runStream_audio, if_neg (flagsTrue_ne_false t), if_pos (by simp [flagsTrue])]
          simp only [streamFails, List.any_cons]
          rw [ih (t + 2)]
          simp [isFailEvent, streamFails]
      | ttsError =>
          rw [runStream_ttsError, if_neg (flagsTrue_ne_false t)]
          simp [streamFails, isFailEvent]
      | timeout =>
          rw [runStream_timeout, if_neg (flagsTrue_ne_false t)]
          simp [streamFails, isFailEvent]

theorem runAttempts_flagsTrue_shift (evsOf : Nat → List TtsEvent) (i : Nat)
    (atts : List Nat) (t t' : Nat) :
    (runAttempts flagsTrue evsOf i atts t).1 = (runAttempts flagsTrue evsOf i atts t').1 := by
  induction atts generalizing t t' with
  | nil => rw [runAttempts, runAttempts]
  | cons a rest ih =>
      rw [runAttempts, runAttempts]
      have hsh := runStream_flagsTrue_shift (evsOf a) t t'
      by_cases h1 : (runStream flagsTrue (evsOf a) t).aborted = false
      · have h1' : (runStream flagsTrue (evsOf a) t').aborted = false := by
          rw [← hsh.2]
          exact h1
        rw [if_pos h1, if_pos h1']
        simp [hsh.1]
      · have h1' : ¬ (runStream flagsTrue (evsOf a) t').aborted = false := by
          rw [← hsh.2]
          exact h1
        rw [if_neg h1, if_neg h1',
          if_neg (flagsTrue_ne_false _), if_neg (flagsTrue_ne_false _)]
        by_cases h3 : rest ≠ []
        · rw [if_pos h3, if_pos h3]
          simp only [hsh.1]
          rw [ih ((runStream flagsTrue (evsOf a) t).time + 1)
            ((runStream flagsTrue (evsOf a) t').time + 1)]
        · rw [if_neg h3, if_neg h3]
          simp [hsh.1]

theorem runAttempts_allfail_mem (evsOf : Nat → List TtsEvent) (i : Nat)
    (atts : List Nat) (t : Nat)
    (hfail : ∀ a ∈ atts, streamFails (evsOf a) = true) :
    ∀ a ∈ atts, .startAttempt i a ∈ (runAttempts flagsTrue evsOf i atts t).1 := by
  induction atts generalizing t with
  | nil =>
      intro a ha
      simp at ha
  | cons a0 rest ih =>
      intro a ha
      have hab : ¬ (runStream flagsTrue (evsOf a0) t).aborted = false := by
        rw [runStream_flagsTrue_aborted]
        simp [hfail a0 (List.mem_cons_self a0 rest)]
      rw [runAttempts, if_neg hab, if_neg (flagsTrue_ne_false _)]
      rcases List.mem_cons.mp ha with rfl | ha
      · by_cases h3 : rest ≠ []
        · rw [if_pos h3]
          exact List.mem_cons_self _ _
        · rw [if_neg h3]
          exact List.mem_cons_self _ _
      · have h3 : rest ≠ [] := by
          intro hnil
          rw [hnil] at ha
          simp at ha
        rw [if_pos h3]
        refine List.mem_cons_of_mem _ (List.mem_append.mpr (Or.inr ?_))
        refine List.mem_cons_of_mem _ ?_
        exact ih _ (fun a' ha' => hfail a' (List.mem_cons_of_mem a0 ha')) a ha

theorem runChunks_start_mem (oracle : Nat → Nat → List TtsEvent)
    (idxs : List Nat) (t : Nat) :
    ∀ j ∈ idxs, .startAttempt j 0 ∈ (runChunks flagsTrue oracle idxs t).1 := by
  induction idxs generalizing t with
  | nil =>
      intro j hj
      simp at hj
  | cons j0 rest ih =>
      intro j hj
      rw [runChunks, if_neg (flagsTrue_ne_false t)]
      rcases List.mem_cons.mp hj with rfl | hj
      · refine List.mem_append.mpr (Or.inl ?_)
        have hrange : List.range max_retries = 0 :: [1, 2] := by decide
        obtain ⟨tl, htl⟩ := runAttempts_head flagsTrue (oracle j) j 0 [1, 2] (t + 1)
        rw [hrange, htl]
        exact List.mem_cons_self _ _
      · exact List.mem_append.mpr (Or.inr (ih _ j hj))

theorem runChunks_attempts_sub (oracle : Nat → Nat → List TtsEvent)
    (idxs : List Nat) (t : Nat) :
    ∀ j ∈ idxs, ∀ e ∈ (runAttempts flagsTrue (oracle j) j (List.range max_retries) 0).1,
      e ∈ (runChunks flagsTrue oracle idxs t).1 := by
  induction idxs generalizing t with
  | nil =>
      intro j hj
      simp at hj
  | cons j0 rest ih =>
      intro j hj e he
      rw [runChunks, if_neg (flagsTrue_ne_false t)]
      rcases List.mem_cons.mp hj with rfl | hj
      · refine List.mem_append.mpr (Or.inl ?_)
        rw [runAttempts_flagsTrue_shift (oracle j) j (List.range max_retries) (t + 1) 0]
        exact he
      · exact List.mem_append.mpr (Or.inr (ih _ j hj e he))

/- ## Claim theorems -/

/-- C2: for every input text, every chunk returned by split_text_smart_v3
is nonempty and has at most HARD_LIMIT_SIZE = 1000 characters. -/
theorem split_chunk_size_bounds (t : List Char) :
    ∀ c ∈ split_text_smart_v3 t, c ≠ [] ∧ c.length ≤ HARD_LIMIT_SIZE :=
  split_chunk_bounds t

theorem split_chunk_size_bounds_witness :
    "Hello，World，".toList ∈ split_text_smart_v3 ("Hello\nWorld".toList) ∧
    ("Hello，World，".toList ≠ [] ∧
      ("Hello，World，".toList).length ≤ HARD_LIMIT_SIZE) :=
  ⟨by decide, split_chunk_size_bounds ("Hello\nWorld".toList) ("Hello，World，".toList)
    (by decide)⟩

/-- C3 counterexample: on the input "Hello\nWorld" the segmenter does
not return the chunk "Hello\nWorld" — the two lines are joined with the
injected '，' separator instead. -/
theorem split_hello_not_verbatim :
    split_text_smart_v3 ("Hello\nWorld".toList) ≠ ["Hello\nWorld".toList] := by
  decide

/-- C3 (amended): on the input "Hello\nWorld" the segmenter returns
exactly one chunk, whose content is "Hello，World，" — the two stripped
lines in order, each followed by the injected '，' separator. -/
theorem split_hello_single_chunk :
    split_text_smart_v3 ("Hello\nWorld".toList) = ["Hello，World，".toList] := by
  decide

/-- C4: for every input text, the concatenation of the chunks equals
the concatenation of the stripped non-blank lines of the normalized
text (with '#', '*' and '\r' removed and blank lines dropped), in
order, with one injected '，' separator after each line that entered
the accumulation buffer (those of at most CHUNK_MIN_SIZE characters) —
so removing the injected separators recovers exactly the non-blank
content. -/
theorem split_content_preserved (t : List Char) :
    (split_text_smart_v3 t).flatten
      = ((pySplitLines (normalizeText t)).map lineContrib).flatten := by
  simp only [split_text_smart_v3, split_text_smart_v3_tagged]
  by_cases hg : pyStrip (normalizeText t) = []
  · rw [if_pos hg]
    have hall := pyStrip_nil_all _ hg
    have hz : ∀ raw ∈ pySplitLines (normalizeText t), lineContrib raw = [] := by
      intro raw hraw
      have hws : ∀ c ∈ raw, isPySpace c :=
        fun c hc => hall c (pySplitLines_mem _ raw hraw c hc)
      simp [lineContrib, pyStrip_eq_nil_of_all raw hws]
    simp only [List.map_nil, List.flatten_nil]
    symm
    rw [List.flatten_eq_nil_iff]
    intro l hl
    rw [List.mem_map] at hl
    obtain ⟨raw, hraw, rfl⟩ := hl
    exact hz raw hraw
  · rw [if_neg hg]
    have h := splitLoopT_flatten (pySplitLines (normalizeText t)) [] []
    simpa using h

/-- C8: an input that is empty or whitespace-only after normalization
(removal of '#', '*', '\r') yields the empty chunk sequence; the
function is total, so no error is raised. -/
theorem split_blank_noop (t : List Char) (h : pyStrip (normalizeText t) = []) :
    split_text_smart_v3 t = [] := by
  simp [split_text_smart_v3, split_text_smart_v3_tagged, h]

theorem split_blank_noop_witness :
    pyStrip (normalizeText ("  \t\n\r# * ".toList)) = [] ∧
    split_text_smart_v3 ("  \t\n\r# * ".toList) = [] :=
  ⟨by decide, split_blank_noop ("  \t\n\r# * ".toList) (by decide)⟩

/-- C9: after stop_playback with clear_flags = true, the session state
has is_playing = false and ffplay_process = none; an immediately
following stop_playback call finds no process handle to terminate and
leaves the state unchanged — stop_playback is idempotent on the shared
session state. -/
theorem stop_playback_idempotent (s : SessionState) :
    (stop_playback true s).state.is_playing = false ∧
    (stop_playback true s).state.ffplay_process = none ∧
    (stop_playback true (stop_playback true s).state).terminated = none ∧
    (stop_playback true (stop_playback true s).state).state = (stop_playback true s).state :=
  ⟨rfl, rfl, rfl, rfl⟩

/-- C10 (amended): every chunk built through the line-accumulation
buffer ends with the injected '，' and has at most CHUNK_MIN_SIZE + 1 =
301 characters. -/
theorem buffer_chunk_shape (t c : List Char)
    (h : (true, c) ∈ split_text_smart_v3_tagged t) :
    c.getLast? = some '，' ∧ c.length ≤ CHUNK_MIN_SIZE + 1 := by
  simp only [split_text_smart_v3_tagged] at h
  by_cases hg : pyStrip (normalizeText t) = []
  · rw [if_pos hg] at h
    simp at h
  · rw [if_neg hg] at h
    exact splitLoopT_buffer_mem _ [] [] (by simp) (Or.inl rfl) c h

theorem buffer_chunk_shape_witness :
    (true, "Hello，World，".toList) ∈ split_text_smart_v3_tagged ("Hello\nWorld".toList) ∧
    (("Hello，World，".toList).getLast? = some '，' ∧
      ("Hello，World，".toList).length ≤ CHUNK_MIN_SIZE + 1) :=
  ⟨by decide, buffer_chunk_shape ("Hello\nWorld".toList) ("Hello，World，".toList) (by decide)⟩

set_option maxRecDepth 4000 in
/-- C10 counterexample: on the concrete input tC10 the buffer-built
chunk "a，" is a verbatim substring (in fact a prefix) of the source
text, refuting the claim that buffer-built chunks are never verbatim
substrings of the source. -/
theorem buffer_chunk_verbatim_counterexample :
    (true, ['a', '，']) ∈ split_text_smart_v3_tagged tC10 ∧
    ∃ pre post, pre ++ ['a', '，'] ++ post = tC10 := by
  constructor
  · decide
  · exact ⟨[], List.replicate 299 'b' ++ '\n' :: ['a'], rfl⟩

/-- C5 counterexample: with backend behaviour oracleC5 every fetch
attempt for chunk 0 fails (it times out after streaming one audio
frame), yet an audio frame of chunk 0 is enqueued on the data queue —
refuting the claim that a chunk whose attempts all fail has no audio
frames enqueued. -/
theorem producer_partial_frames_counterexample :
    streamFails (oracleC5 0 0) = true ∧ streamFails (oracleC5 0 1) = true ∧
    streamFails (oracleC5 0 2) = true ∧
    QItem.frame 7 ∈ queueWrites (audio_producer flagsTrue oracleC5 true 2) := by
  refine ⟨by decide, by decide, by decide, by decide⟩

/-- C5 (amended): in an uncancelled session, when every fetch attempt
for chunk i fails, the chunk is abandoned after exactly max_retries = 3
attempts (audio frames already streamed by the failed attempts may have
been enqueued) and every chunk of the session is still processed in
order — a single chunk exhausting its retries never aborts the
producer loop. -/
theorem producer_skip_and_continue (oracle : Nat → Nat → List TtsEvent) (ok : Bool)
    (n i : Nat) (hin : i < n)
    (hfail : ∀ a, a < max_retries → streamFails (oracle i a) = true) :
    (∀ j, j < n → PEv.startAttempt j 0 ∈ audio_producer flagsTrue oracle ok n) ∧
    (∀ a, PEv.startAttempt i a ∈ audio_producer flagsTrue oracle ok n ↔ a < max_retries) := by
  have hmemQ : ∀ e : PEv, e ∈ audio_producer flagsTrue oracle ok n ↔
      e ∈ (runChunks flagsTrue oracle (List.range n) 0).1 ∨
        (e = PEv.putQ QItem.sentinel ∧ ok = true) := by
    intro e
    cases ok <;> simp [audio_producer, List.mem_append]
  constructor
  · intro j hj
    rw [hmemQ]
    exact Or.inl (runChunks_start_mem oracle (List.range n) 0 j (List.mem_range.mpr hj))
  · intro a
    constructor
    · intro hmem
      rw [hmemQ] at hmem
      rcases hmem with hmem | ⟨hmem, -⟩
      · rcases runChunks_shape flagsTrue oracle (List.range n) 0 _ hmem with
          ⟨d, hd⟩ | hd | ⟨j, hj, a', ha', hd⟩
        · simp at hd
        · simp at hd
        · simp only [PEv.startAttempt.injEq] at hd
          rw [hd.2]
          exact List.mem_range.mp ha'
      · simp at hmem
    · intro ha
      rw [hmemQ]
      refine Or.inl (runChunks_attempts_sub oracle (List.range n) 0 i
        (List.mem_range.mpr hin) _ ?_)
      exact runAttempts_allfail_mem (oracle i) i (List.range max_retries) 0
        (fun a' ha' => hfail a' (List.mem_range.mp ha')) a (List.mem_range.mpr ha)

theorem producer_skip_and_continue_witness :
    PEv.startAttempt 1 0 ∈ audio_producer flagsTrue oracleC5 true 2 ∧
    (PEv.startAttempt 0 2 ∈ audio_producer flagsTrue oracleC5 true 2 ↔ 2 < max_retries) :=
  ⟨(producer_skip_and_continue oracleC5 true 2 0 (by decide) (fun a _ => rfl)).1 1 (by decide),
   (producer_skip_and_continue oracleC5 true 2 0 (by decide) (fun a _ => rfl)).2 2⟩

/-- C6: whenever a fetch attempt aborts (its stream raises a timeout or
a backend error) and the is_playing flag read immediately afterwards is
false, the retry loop stops the chunk at once: its trace is exactly the
attempt marker followed by the frames already streamed — no cooldown
sleep is performed and no further attempt for the chunk is started.
Cancellation takes priority over retry. -/
theorem cancel_priority_over_retry (flags : Nat → Bool) (evsOf : Nat → List TtsEvent)
    (i a : Nat) (rest : List Nat) (t : Nat)
    (hab : (runStream flags (evsOf a) t).aborted = true)
    (hcancel : flags (runStream flags (evsOf a) t).time = false) :
    (runAttempts flags evsOf i (a :: rest) t).1
      = PEv.startAttempt i a :: (runStream flags (evsOf a) t).trace ∧
    (∀ e ∈ (runAttempts flags evsOf i (a :: rest) t).1, e ≠ PEv.sleepCooldown) ∧
    (∀ a', PEv.startAttempt i a' ∈ (runAttempts flags evsOf i (a :: rest) t).1 → a' = a) := by
  have h1 : ¬ (runStream flags (evsOf a) t).aborted = false := by
    rw [hab]
    simp
  have heq : (runAttempts flags evsOf i (a :: rest) t).1
      = PEv.startAttempt i a :: (runStream flags (evsOf a) t).trace := by
    rw [runAttempts, if_neg h1, if_pos hcancel]
  refine ⟨heq, ?_, ?_⟩
  · intro e he
    rw [heq] at he
    rcases List.mem_cons.mp he with rfl | he
    · simp
    · obtain ⟨d, rfl⟩ := runStream_trace_frames flags (evsOf a) t e he
      simp
  · intro a' ha'
    rw [heq] at ha'
    rcases List.mem_cons.mp ha' with h | h
    · simp only [PEv.startAttempt.injEq] at h
      exact h.2
    · obtain ⟨d, hd⟩ := runStream_trace_frames flags (evsOf a) t _ h
      simp at hd

theorem cancel_priority_over_retry_witness :
    (runStream flagsOnce (evsTimeout 0) 0).aborted = true ∧
    flagsOnce (runStream flagsOnce (evsTimeout 0) 0).time = false ∧
    (runAttempts flagsOnce evsTimeout 5 (0 :: [1, 2]) 0).1
      = PEv.startAttempt 5 0 :: (runStream flagsOnce (evsTimeout 0) 0).trace :=
  ⟨by decide, by decide,
    (cancel_priority_over_retry flagsOnce evsTimeout 5 0 [1, 2] 0 (by decide) (by decide)).1⟩

/-- C7 counterexample: at target speed 4 the chained-doubling
construction of the spec yields the chain [2, 2] whose product is the
target, but the code computes no numeric filter chain at all for any
speed of at least 2 — its else branch is a fixed literal string that
names no residual stage — so the computed chain does not realize the
target multiplier for arbitrary speeds. -/
theorem atempo_no_doubling_counterexample :
    atempoChain 4 = none ∧
    specDoublingChain 2 4 = [2, 2] ∧ (specDoublingChain 2 4).prod = 4 := by
  refine ⟨?_, ?_, ?_⟩
  · rw [atempoChain, if_neg (by norm_num)]
  · norm_num [specDoublingChain]
  · norm_num [specDoublingChain]

/-- C7 (amended): for every target speed below 2.0 the computed filter
chain is the single stage atempo=speed, which realizes the target
multiplier exactly; in particular this holds at the configured
SPEED = 1.5.  No chained doubling takes place for larger speeds. -/
theorem atempo_single_stage :
    (∀ s : ℚ, s < 2 → atempoChain s = some [s] ∧ [s].prod = s) ∧
    atempoChain SPEED = some [SPEED] ∧ SPEED < 2 := by
  refine ⟨fun s hs => ⟨by rw [atempoChain, if_pos hs], by simp⟩, ?_, by norm_num [SPEED]⟩
  rw [atempoChain, if_pos (by norm_num [SPEED])]

theorem atempo_single_stage_witness :
    atempoChain SPEED = some [SPEED] ∧ [SPEED].prod = SPEED :=
  ⟨atempo_single_stage.2.1, (atempo_single_stage.1 SPEED (by norm_num [SPEED])).2⟩
